import Mathlib

/-!
Shallow embedding of the `dwd-radar` image-tracking engine.

The repository holds two variants of the same engine:
* `image-tracker.js` — whole-field block averaging (grid of mean legend
  ranks, `trackMovement`, speed from the averaged displacement);
* the `ImageTracker` class shipped inside `saveSettings.php` — single-target
  centroid tracking (binary grid for one selected colour,
  `trackMovementFromCenter`).

Pixels are RGBA byte quadruples; grids hold rationals (the source stores
JavaScript numbers produced by integer sums and divisions, which we model
exactly over `ℚ`).  The source compares Euclidean colour distances through
`Math.sqrt`; since `Real.sqrt` is strictly monotone on nonnegatives, the
embedding compares squared distances and bridging lemmas recover the
source's square-root formulation.  Collaborator boundaries (canvas
decoding, the Leaflet projection, DOM output) are modelled as explicit
inputs: an `Image` is a pixel sampler, the projection is a function
argument of the speed calculator, and the result sink is the returned
value.
-/

namespace DwdRadar

/-- RGB24 colour value, the key type of the legend table (the source keys
its `Map` by the hex string `#rrggbb`, which encodes exactly this triple
for byte components). -/
abbrev Color := ℕ × ℕ × ℕ

/-- One RGBA sample as read from canvas `ImageData`. -/
structure RGBA where
  r : ℕ
  g : ℕ
  b : ℕ
  a : ℕ
  deriving DecidableEq, Repr

/-- The RGB triple of a pixel (the hex string built by the source). -/
def rgbOf (p : RGBA) : Color := (p.r, p.g, p.b)

/-- Squared Euclidean RGB distance.  `color_distance` in the source is
`Math.sqrt` of this value; every use of it is an order comparison, which
the squared form decides identically. -/
def distSq (c d : Color) : ℤ :=
  ((c.1 : ℤ) - d.1) ^ 2 + ((c.2.1 : ℤ) - d.2.1) ^ 2 + ((c.2.2 : ℤ) - d.2.2) ^ 2

/-- One step of the running-minimum pattern the source uses everywhere
(`if (cost < best.cost) best = current`): `none` plays the role of the
`Infinity` initialiser, so the first candidate is always adopted and a
later candidate replaces the best one only on a strictly smaller cost. -/
def minStep {α β : Type} [LinearOrder β] (cost : α → β) :
    Option (α × β) → α → Option (α × β)
  | none, a => some (a, cost a)
  | some (b, c), a => if cost a < c then some (a, cost a) else some (b, c)

/-- Running strict minimum over a candidate list, keeping the earliest
candidate on ties — the direct translation of the source's search loops. -/
def foldMin {α β : Type} [LinearOrder β] (cost : α → β) (l : List α) :
    Option (α × β) :=
  l.foldl (minStep cost) none

/-- First global minimiser of `cost` on `l`, written declaratively: the
first element whose cost is less than or equal to every cost in the list.
`foldMin_eq_find?` proves the source's loops compute exactly this. -/
def firstArgmin {α β : Type} [LinearOrder β] (cost : α → β) (l : List α) :
    Option α :=
  l.find? fun a => l.all fun b => decide (cost a ≤ cost b)

/-! ## Legend extraction -/

/-- Background rejection used by both legend scanners
(`a > 200 && r + g + b < 700` in the source). -/
def qualifiesJS (p : RGBA) : Bool :=
  decide (200 < p.a) && decide (p.r + p.g + p.b < 700)

/-- Near-gray test of the higher-fidelity scanner
(`Math.abs(r-g) < 10 && Math.abs(g-b) < 10`). -/
def isGrey (p : RGBA) : Bool :=
  decide (((p.r : ℤ) - p.g).natAbs < 10) && decide (((p.g : ℤ) - p.b).natAbs < 10)

/-- Acceptance test of the higher-fidelity scanner in `saveSettings.php`:
background rejection plus the near-gray filter. -/
def qualifiesPHP (p : RGBA) : Bool :=
  decide (200 < p.a) && decide (p.r + p.g + p.b < 700) && !isGrey p

/-- One pixel of the centre-column scan of `image-tracker.js`
`parseLegend`: append a qualifying colour on first sight
(`if (!colors.includes(hex)) colors.push(hex)`). -/
def scanStepJS (acc : List Color) (p : RGBA) : List Color :=
  if qualifiesJS p && decide (rgbOf p ∉ acc) then acc ++ [rgbOf p] else acc

/-- Centre-column scan of `image-tracker.js` `parseLegend`: walk the
sampled pixels top to bottom. -/
def scanColJS (col : List RGBA) : List Color :=
  col.foldl scanStepJS []

/-- Row scan of the `saveSettings.php` legend parser: the first pixel of a
row that qualifies and carries a colour not seen before (`break` after the
first new colour; known colours do not stop the scan). -/
def rowNewColor (seen : List Color) (row : List RGBA) : Option RGBA :=
  row.find? fun p => qualifiesPHP p && decide (rgbOf p ∉ seen)

/-- One row of the band scan of the `saveSettings.php` legend parser:
record the row's first new qualifying colour, if any, with the row
index. -/
def scanStepPHP (acc : List (Color × ℕ)) (yrow : ℕ × List RGBA) :
    List (Color × ℕ) :=
  match rowNewColor (acc.map Prod.fst) yrow.2 with
  | some p => acc ++ [(rgbOf p, yrow.1)]
  | none => acc

/-- Band scan of the `saveSettings.php` legend parser: over the rows
(already cut to the middle band by the sampler), record at most one new
colour per row together with its row index `y`. -/
def scanRowsPHP (rows : List (List RGBA)) : List (Color × ℕ) :=
  (rows.enum).foldl scanStepPHP []

/-- Rank assignment `colors.map((color, index) => [color, index + 1])`:
ranks are the 1-based positions in the colour list. -/
def assignRanks (cs : List Color) : List (Color × ℕ) :=
  (cs.enumFrom 1).map fun ic => (ic.2, ic.1)

/-- Colour table built by `image-tracker.js` `parseLegend` from the
sampled centre column. -/
def legendJS (col : List RGBA) : List (Color × ℕ) :=
  assignRanks (scanColJS col)

/-- Comparator `colorPositions.get(a) - colorPositions.get(b)`: sort the
recorded colours by their first-seen row. -/
def posLe (e f : Color × ℕ) : Prop := e.2 ≤ f.2

instance : DecidableRel posLe := fun e f => inferInstanceAs (Decidable (e.2 ≤ f.2))

/-- Colour table built by the `saveSettings.php` legend parser: scan the
band, sort by first-seen row, then assign ranks 1..N. -/
def legendPHP (rows : List (List RGBA)) : List (Color × ℕ) :=
  assignRanks ((List.insertionSort posLe (scanRowsPHP rows)).map Prod.fst)

/-- Row index of the first qualifying occurrence of colour `c` in the
sampled centre column (`col.length` when there is none). -/
def firstSeenRowJS (col : List RGBA) (c : Color) : ℕ :=
  col.findIdx fun p => qualifiesJS p && decide (rgbOf p = c)

/-! ## Colour classifier -/

/-- `findClosestLegendColor`: nearest legend colour by Euclidean RGB
distance with the `< 100` rejection threshold (squared here: `< 100²`).
Returns `none` when the table is absent or empty, mirroring the
`!this.legendColorMap || this.legendColorMap.size === 0` guard. -/
def findClosestLegendColor (tbl? : Option (List (Color × ℕ))) (r g b : ℕ) :
    Option Color :=
  match tbl? with
  | none => none
  | some tbl =>
    match foldMin (fun c => distSq (r, g, b) c) (tbl.map Prod.fst) with
    | some (c, d) => if d < 10000 then some c else none
    | none => none

/-- Rank of the first table entry carrying colour `c`
(`this.legendColorMap.get(hex)`). -/
def rankOf (tbl : List (Color × ℕ)) (c : Color) : Option ℕ :=
  (tbl.find? fun e => decide (e.1 = c)).map Prod.snd

/-- Full classification `classify(pixel) -> rank | none`: the nearest
in-tolerance legend colour mapped to its rank through the table. -/
def classify (tbl? : Option (List (Color × ℕ))) (r g b : ℕ) : Option ℕ :=
  (findClosestLegendColor tbl? r g b).map fun c =>
    (rankOf (tbl?.getD []) c).getD 0

/-- Declarative classifier used to state C3: the first table entry whose
squared distance to the pixel is minimal over the whole table, filtered by
the tolerance threshold, projected to its rank. -/
def classifySpec (tbl : List (Color × ℕ)) (r g b : ℕ) : Option ℕ :=
  (tbl.find? fun e =>
      tbl.all fun f => decide (distSq (r, g, b) e.1 ≤ distSq (r, g, b) f.1)).bind
    fun e => if distSq (r, g, b) e.1 < 10000 then some e.2 else none

/-! ## Grid rasterizer -/

/-- A decoded frame: pixel sampler plus dimensions (the canvas
`ImageData`). -/
structure Image where
  width : ℕ
  height : ℕ
  pix : ℕ → ℕ → RGBA

/-- The `gs × gs` pixel block of grid cell `(gy, gx)`, in the row-major
order of the source's inner loops. -/
def cellPixels (img : Image) (gs gy gx : ℕ) : List RGBA :=
  (List.range gs).flatMap fun y =>
    (List.range gs).map fun x => img.pix (gx * gs + x) (gy * gs + y)

/-- One pixel of the averaging-mode cell loop
(`totalIntensity += rank; pixelCount++` for alpha above 128 and an
in-tolerance classification). -/
def cellAccum (tbl? : Option (List (Color × ℕ))) (tc : ℕ × ℕ) (p : RGBA) :
    ℕ × ℕ :=
  if 128 < p.a then
    match classify tbl? p.r p.g p.b with
    | some rank => (tc.1 + rank, tc.2 + 1)
    | none => tc
  else tc

/-- Averaging-mode cell computation of `image-tracker.js` `analyzeFrame`:
accumulate `totalIntensity` and `pixelCount` over the block's pixels with
alpha above 128 that classify to a legend colour, then keep the mean rank
when strictly more than 10% of the block matched. -/
def cellValueAvg (tbl? : Option (List (Color × ℕ))) (gs : ℕ)
    (pxs : List RGBA) : ℚ :=
  let acc := pxs.foldl (cellAccum tbl?) (0, 0)
  if (gs * gs : ℚ) / 10 < (acc.2 : ℚ) then (acc.1 : ℚ) / (acc.2 : ℚ) else 0

/-- One pixel of the binary-mode cell loop (`targetColorPixels++` for
alpha above 128 and a nearest colour exactly equal to the selected one). -/
def cellCount (tbl? : Option (List (Color × ℕ))) (target : Color) (n : ℕ)
    (p : RGBA) : ℕ :=
  if 128 < p.a then
    if findClosestLegendColor tbl? p.r p.g p.b = some target then n + 1 else n
  else n

/-- Binary-mode cell computation of the `saveSettings.php` `analyzeFrame`:
count the block's pixels with alpha above 128 whose nearest legend colour
is exactly the selected one; the cell is marked `1` when strictly more
than 10% of the block matched, else `0`. -/
def cellValueBin (tbl? : Option (List (Color × ℕ))) (target : Color)
    (gs : ℕ) (pxs : List RGBA) : ℚ :=
  let cnt := pxs.foldl (cellCount tbl? target) 0
  if (gs * gs : ℚ) / 10 < (cnt : ℚ) then 1 else 0

/-- Pixels of a block that the averaging rasterizer actually counts:
alpha strictly above 128 and an in-tolerance classification. -/
def matchedPixels (tbl? : Option (List (Color × ℕ))) (pxs : List RGBA) :
    List RGBA :=
  pxs.filter fun p => decide (128 < p.a) && (classify tbl? p.r p.g p.b).isSome

/-- Sum of the ranks of the counted pixels of a block. -/
def rankSum (tbl? : Option (List (Color × ℕ))) (pxs : List RGBA) : ℕ :=
  ((matchedPixels tbl? pxs).map fun p => (classify tbl? p.r p.g p.b).getD 0).sum

/-- A grid is the per-frame array of cell values (row-major, `rows` lists
of `cols` rationals). -/
abbrev Grid := List (List ℚ)

/-- Grid cell read `grid[y][x]`, defaulting to `0` outside the stored
rows/columns (binary grids store `0` for inactive cells, so the default
coincides with the source's treatment of missing entries). -/
def gcell (g : Grid) (y x : ℕ) : ℚ := (g.getD y []).getD x 0

/-- Whole-field grid of `image-tracker.js`: `floor(h/10)` rows by
`floor(w/10)` columns of averaged cell ranks. -/
def buildGridAvg (tbl? : Option (List (Color × ℕ))) (img : Image) : Grid :=
  (List.range (img.height / 10)).map fun gy =>
    (List.range (img.width / 10)).map fun gx =>
      cellValueAvg tbl? 10 (cellPixels img 10 gy gx)

/-- Binary grid of the `saveSettings.php` variant. -/
def buildGridBin (tbl? : Option (List (Color × ℕ))) (target : Color)
    (img : Image) : Grid :=
  (List.range (img.height / 10)).map fun gy =>
    (List.range (img.width / 10)).map fun gx =>
      cellValueBin tbl? target 10 (cellPixels img 10 gy gx)

/-! ## Motion estimation -/

/-- Search offsets `-R .. R` in ascending order, as iterated by the
source's `for (let s = -R; s <= R; s++)` loops. -/
def offsets (R : ℕ) : List ℤ :=
  (List.range (2 * R + 1)).map fun i => (i : ℤ) - (R : ℤ)

/-- Row-major enumeration of all grid cells. -/
def allCells (rows cols : ℕ) : List (ℕ × ℕ) :=
  (List.range rows).flatMap fun y => (List.range cols).map fun x => (y, x)

/-- In-bounds cells of the square search window of radius `R` centred on
`(y, x)`, in the row-major visiting order of the nested search loops. -/
def candidates (rows cols y x R : ℕ) : List (ℕ × ℕ) :=
  (offsets R).flatMap fun dy =>
    (offsets R).filterMap fun dx =>
      let ny := (y : ℤ) + dy
      let nx := (x : ℤ) + dx
      if 0 ≤ ny ∧ ny < (rows : ℤ) ∧ 0 ≤ nx ∧ nx < (cols : ℤ) then
        some (ny.toNat, nx.toNat)
      else none

/-- Absolute rank difference `Math.abs(grid1[y][x] - grid2[newY][newX])`,
the matching cost of the whole-field search. -/
def matchCost (g1 g2 : Grid) (y x : ℕ) (q : ℕ × ℕ) : ℚ :=
  |gcell g1 y x - gcell g2 q.1 q.2|

/-- Displacement contributed by one cell of the older grid in whole-field
mode: `none` when the cell is inactive (value ≤ 0.1) or the best match in
the radius-5 window has error ≥ 0.5, else the (dx, dy) cell offset of the
best match. -/
def cellVector (g1 g2 : Grid) (rows cols : ℕ) (c : ℕ × ℕ) :
    Option (ℤ × ℤ) :=
  if 1 / 10 < gcell g1 c.1 c.2 then
    match foldMin (matchCost g1 g2 c.1 c.2) (candidates rows cols c.1 c.2 5) with
    | some (q, e) =>
      if e < 1 / 2 then some ((q.2 : ℤ) - (c.2 : ℤ), (q.1 : ℤ) - (c.1 : ℤ))
      else none
    | none => none
  else none

/-- Declarative counterpart of `cellVector` used to state C1: the match is
the first row-major cell of the window attaining the minimal absolute
value difference, accepted only below the 0.5 error threshold. -/
def cellVectorSpec (g1 g2 : Grid) (rows cols : ℕ) (c : ℕ × ℕ) :
    Option (ℤ × ℤ) :=
  if 1 / 10 < gcell g1 c.1 c.2 then
    match firstArgmin (matchCost g1 g2 c.1 c.2) (candidates rows cols c.1 c.2 5) with
    | some q =>
      if matchCost g1 g2 c.1 c.2 q < 1 / 2 then
        some ((q.2 : ℤ) - (c.2 : ℤ), (q.1 : ℤ) - (c.1 : ℤ))
      else none
    | none => none
  else none

/-- Accumulation `totalDx += ...; totalDy += ...; vectorCount++` over the
row-major cell traversal, from an explicit starting accumulator. -/
def accumVecsFrom {α : Type} (v : α → Option (ℤ × ℤ)) (i : ℤ × ℤ × ℕ)
    (l : List α) : ℤ × ℤ × ℕ :=
  l.foldl
    (fun acc c =>
      match v c with
      | some d => (acc.1 + d.1, acc.2.1 + d.2, acc.2.2 + 1)
      | none => acc)
    i

/-- Accumulation starting from `totalDx = totalDy = vectorCount = 0`. -/
def accumVecs {α : Type} (v : α → Option (ℤ × ℤ)) (l : List α) :
    ℤ × ℤ × ℕ :=
  accumVecsFrom v (0, 0, 0) l

/-- Result of the whole-field motion estimator: either the mean
displacement of the accepted vectors or the ambiguous-motion report
(`"Bewegung unklar"`). -/
inductive MotionResult : Type
  | ambiguous : MotionResult
  | estimate (dx dy : ℚ) : MotionResult
  deriving DecidableEq, Repr

/-- `trackMovement` of `image-tracker.js`: per active cell of the older
grid, search the radius-5 window of the newer grid for the value-closest
cell, accept sub-0.5-error matches, and emit the arithmetic mean of the
accepted displacement vectors when there are strictly more than 10. -/
def trackMovement (g1 g2 : Grid) : MotionResult :=
  let rows := g1.length
  let cols := (g1.headD []).length
  let acc := accumVecs (cellVector g1 g2 rows cols) (allCells rows cols)
  if 10 < acc.2.2 then
    .estimate ((acc.1 : ℚ) / (acc.2.2 : ℚ)) ((acc.2.1 : ℚ) / (acc.2.2 : ℚ))
  else .ambiguous

/-- Accepted displacement vectors of the declarative estimator. -/
def acceptedVectors (g1 g2 : Grid) : List (ℤ × ℤ) :=
  let rows := g1.length
  let cols := (g1.headD []).length
  (allCells rows cols).filterMap (cellVectorSpec g1 g2 rows cols)

/-- Declarative whole-field estimator used to state C1. -/
def trackMovementSpec (g1 g2 : Grid) : MotionResult :=
  let vs := acceptedVectors g1 g2
  if 10 < vs.length then
    .estimate (((vs.map Prod.fst).sum : ℚ) / (vs.length : ℚ))
      (((vs.map Prod.snd).sum : ℚ) / (vs.length : ℚ))
  else .ambiguous

/-- Result of the single-target estimator: no target under the crosshair
(`"Keine Zieldaten am Fadenkreuz"`), ambiguous motion, or an integral cell
displacement. -/
inductive CenterResult : Type
  | noTarget : CenterResult
  | ambiguous : CenterResult
  | displacement (dx dy : ℤ) : CenterResult
  deriving DecidableEq, Repr

/-- Active in-bounds cells of the radius-8 window around the reference
cell, in row-major visiting order (`grid2[newY][newX] === 1` checked
inside the bounds test). -/
def centerCandidates (g2 : Grid) (rows cols sx sy : ℕ) : List (ℕ × ℕ) :=
  (offsets 8).flatMap fun dy =>
    (offsets 8).filterMap fun dx =>
      let ny := (sy : ℤ) + dy
      let nx := (sx : ℤ) + dx
      if 0 ≤ ny ∧ ny < (rows : ℤ) ∧ 0 ≤ nx ∧ nx < (cols : ℤ) ∧
          gcell g2 ny.toNat nx.toNat = 1 then
        some (ny.toNat, nx.toNat)
      else none

/-- Squared Euclidean cell distance `sX*sX + sY*sY` of a window cell from
the reference position. -/
def centerCost (sx sy : ℕ) (q : ℕ × ℕ) : ℤ :=
  ((q.2 : ℤ) - (sx : ℤ)) ^ 2 + ((q.1 : ℤ) - (sy : ℤ)) ^ 2

/-- `trackMovementFromCenter` of the `saveSettings.php` variant: if the
reference cell of the older grid is not active report no-target, else take
the distance-closest active cell of the radius-8 window in the newer grid
(ambiguous when the window holds none) and report its cell displacement. -/
def trackMovementFromCenter (g1 g2 : Grid) (sx sy : ℕ) : CenterResult :=
  let rows := g1.length
  let cols := (g1.headD []).length
  if gcell g1 sy sx = 1 then
    match foldMin (centerCost sx sy) (centerCandidates g2 rows cols sx sy) with
    | some (q, _) => .displacement ((q.2 : ℤ) - (sx : ℤ)) ((q.1 : ℤ) - (sy : ℤ))
    | none => .ambiguous
  else .noTarget

/-- Declarative single-target estimator used to state C2: the match is the
first row-major active window cell attaining the minimal squared cell
distance. -/
def trackMovementFromCenterSpec (g1 g2 : Grid) (sx sy : ℕ) : CenterResult :=
  let rows := g1.length
  let cols := (g1.headD []).length
  if gcell g1 sy sx = 1 then
    match firstArgmin (centerCost sx sy) (centerCandidates g2 rows cols sx sy) with
    | some q => .displacement ((q.2 : ℤ) - (sx : ℤ)) ((q.1 : ℤ) - (sy : ℤ))
    | none => .ambiguous
  else .noTarget

/-! ## Tracker state, frame history and the legend life cycle -/

/-- One history entry `{ timestamp, grid }`. -/
structure FrameRecord where
  timestamp : String
  grid : Grid
  deriving DecidableEq

/-- Mutable fields of an `ImageTracker` instance that the claims are
about. -/
structure TrackerState where
  legendColorMap : Option (List (Color × ℕ))
  selectedColor : Option Color
  gridData : List FrameRecord
  isEnabled : Bool
  deriving DecidableEq

/-- `gridData.push(newGridData); if (length > 10) shift()`: unconditional
append followed by a single FIFO eviction when the capacity of 10 is
exceeded. -/
def appendFrame (h : List FrameRecord) (r : FrameRecord) : List FrameRecord :=
  let l := h ++ [r]
  if 10 < l.length then l.drop 1 else l

/-- Outcome of a completed legend parse. -/
inductive LegendOutcome : Type
  | ok (table : List (Color × ℕ)) : LegendOutcome
  | noColorsFound : LegendOutcome
  deriving DecidableEq

/-- Completion of `parseLegend` once the image has loaded: the source
assigns `this.legendColorMap = new Map(...)` first and only then checks
the size, so the previous table is replaced even when the scan found
nothing and the promise is rejected with `NoColorsFound`. -/
def parseLegendApply (st : TrackerState) (table : List (Color × ℕ)) :
    TrackerState × LegendOutcome :=
  let st1 := { st with legendColorMap := some table }
  if table.isEmpty then (st1, .noColorsFound) else (st1, .ok table)

/-- `image-tracker.js` `parseLegend` on a successfully loaded legend whose
sampled centre column is `col`. -/
def parseLegendJSModel (st : TrackerState) (col : List RGBA) :
    TrackerState × LegendOutcome :=
  parseLegendApply st (legendJS col)

/-- `saveSettings.php` `parseLegend` on a successfully loaded legend whose
sampled middle band is `rows`. -/
def parseLegendPHPModel (st : TrackerState) (rows : List (List RGBA)) :
    TrackerState × LegendOutcome :=
  parseLegendApply st (legendPHP rows)

/-- The `img.onerror` path of `parseLegend` (`ImageLoadFailed`): the
promise is rejected before any tracker field is touched. -/
def parseLegendLoadFailed (st : TrackerState) : TrackerState := st

/-- `analyzeFrame` of `image-tracker.js`: drop the frame when analysis is
off or no legend map object exists, else rasterize, invoke the estimator
against the last history entry when its timestamp differs, and append the
new record with FIFO eviction. -/
def analyzeFrameAvg (st : TrackerState) (img : Image) (ts : String) :
    TrackerState × Option MotionResult :=
  if st.isEnabled = false ∨ st.legendColorMap = none then (st, none)
  else
    let grid := buildGridAvg st.legendColorMap img
    let res :=
      match st.gridData.getLast? with
      | some last => if last.timestamp ≠ ts then some (trackMovement last.grid grid) else none
      | none => none
    ({ st with gridData := appendFrame st.gridData ⟨ts, grid⟩ }, res)

/-- `analyzeFrame` of the `saveSettings.php` variant: drop the frame when
analysis is off or no target colour is selected (its guard never inspects
the legend table), else rasterize the binary grid and track from the
viewport centre cell `(sx, sy)`. -/
def analyzeFrameBin (st : TrackerState) (img : Image) (ts : String)
    (sx sy : ℕ) : TrackerState × Option CenterResult :=
  if st.isEnabled = false ∨ st.selectedColor = none then (st, none)
  else
    let grid := buildGridBin st.legendColorMap (st.selectedColor.getD (0, 0, 0)) img
    let res :=
      match st.gridData.getLast? with
      | some last =>
        if last.timestamp ≠ ts then
          some (trackMovementFromCenter last.grid grid sx sy)
        else none
      | none => none
    ({ st with gridData := appendFrame st.gridData ⟨ts, grid⟩ }, res)

/-! ## Speed calculation -/

/-- What `calculateSpeed` leaves in the results sink: the stationary
message, silence (non-positive elapsed time), or the km/h figure shown in
the `~ X km/h` string, with `toFixed(1)` modelled by `roundTo1`. -/
inductive SpeedResult : Type
  | stationary : SpeedResult
  | silent : SpeedResult
  | speed (kph : ℚ) : SpeedResult
  deriving DecidableEq, Repr

/-- One-decimal rounding of the displayed figure (`toFixed(1)`). -/
def roundTo1 (q : ℚ) : ℚ := (round (q * 10) : ℤ) / 10

/-- `calculateSpeed` of `image-tracker.js` (averaging mode).  `geoDist`
abstracts the Leaflet round trip centre → container point → offset point →
latLng → `distanceTo` metres; `t1`/`t2` are the parsed frame times in
milliseconds, so `timeDiffSeconds = (t2 - t1) / 1000`.  The stationary
guard compares the pixel distance with 1, embedded on squares. -/
def calculateSpeedAvg (geoDist : ℚ → ℚ → ℚ) (dxCells dyCells : ℚ)
    (t1 t2 : ℤ) : SpeedResult :=
  let dxP := dxCells * 10
  let dyP := dyCells * 10
  if dxP ^ 2 + dyP ^ 2 < 1 then .stationary
  else
    let dt : ℚ := ((t2 : ℚ) - (t1 : ℚ)) / 1000
    if dt ≤ 0 then .silent
    else .speed (roundTo1 (geoDist dxP dyP / dt * (36 / 10)))

/-- `calculateSpeed` of the `saveSettings.php` variant (single-target
mode): the stationary guard is exact zero on both integral cell deltas. -/
def calculateSpeedCenter (geoDist : ℚ → ℚ → ℚ) (dxCells dyCells : ℤ)
    (t1 t2 : ℤ) : SpeedResult :=
  if dxCells = 0 ∧ dyCells = 0 then .stationary
  else
    let dxP : ℚ := (dxCells : ℚ) * 10
    let dyP : ℚ := (dyCells : ℚ) * 10
    let dt : ℚ := ((t2 : ℚ) - (t1 : ℚ)) / 1000
    if dt ≤ 0 then .silent
    else .speed (roundTo1 (geoDist dxP dyP / dt * (36 / 10)))

/-! ## Lemmas: the running-minimum pattern computes the first argmin -/

theorem minStep_isSome {α β : Type} [LinearOrder β] (cost : α → β)
    (acc : Option (α × β)) (a : α) : (minStep cost acc a).isSome := by
  cases acc with
  | none => rfl
  | some bc =>
    obtain ⟨b, c⟩ := bc
    simp only [minStep]
    split <;> simp

theorem foldMin_append {α β : Type} [LinearOrder β] (cost : α → β)
    (l : List α) (a : α) :
    foldMin cost (l ++ [a]) = minStep cost (foldMin cost l) a := by
  simp [foldMin, List.foldl_append]

theorem foldMin_eq_none_iff {α β : Type} [LinearOrder β] (cost : α → β)
    (l : List α) : foldMin cost l = none ↔ l = [] := by
  induction l using List.reverseRecOn with
  | nil => simp [foldMin]
  | append_singleton l a _ =>
    rw [foldMin_append]
    constructor
    · intro h
      have hs := minStep_isSome cost (foldMin cost l) a
      rw [h] at hs
      simp at hs
    · intro h
      simp at h

theorem foldMin_spec {α β : Type} [LinearOrder β] (cost : α → β) :
    ∀ (l : List α) (a : α) (c : β), foldMin cost l = some (a, c) →
      c = cost a ∧ ∃ l1 l2, l = l1 ++ a :: l2 ∧
        (∀ x ∈ l1, cost a < cost x) ∧ (∀ x ∈ l, cost a ≤ cost x) := by
  intro l
  induction l using List.reverseRecOn with
  | nil => intro a c h; simp [foldMin] at h
  | append_singleton l p ih =>
    intro a c h
    rw [foldMin_append] at h
    cases hfl : foldMin cost l with
    | none =>
      have hl : l = [] := (foldMin_eq_none_iff cost l).mp hfl
      rw [hfl] at h
      simp only [minStep, Option.some.injEq, Prod.mk.injEq] at h
      obtain ⟨hap, hcp⟩ := h
      subst hap hl
      refine ⟨hcp.symm, [], [], rfl, by simp, ?_⟩
      intro x hx
      simp at hx
      subst hx
      exact le_refl _
    | some bc =>
      obtain ⟨b, cb⟩ := bc
      obtain ⟨hcb, l1, l2, hdec, hlt, hmin⟩ := ih b cb hfl
      rw [hfl] at h
      simp only [minStep] at h
      by_cases hc : cost p < cb
      · rw [if_pos hc] at h
        simp only [Option.some.injEq, Prod.mk.injEq] at h
        obtain ⟨hap, hcp⟩ := h
        subst hap
        refine ⟨hcp.symm, l, [], rfl, ?_, ?_⟩
        · intro x hx
          exact lt_of_lt_of_le (hcb ▸ hc) (hmin x hx)
        · intro x hx
          rcases List.mem_append.mp hx with hx | hx
          · exact le_of_lt (lt_of_lt_of_le (hcb ▸ hc) (hmin x hx))
          · simp at hx
            subst hx
            exact le_refl _
      · rw [if_neg hc] at h
        simp only [Option.some.injEq, Prod.mk.injEq] at h
        obtain ⟨hab, hccb⟩ := h
        subst hab
        refine ⟨hccb ▸ hcb, l1, l2 ++ [p], by rw [hdec]; simp, hlt, ?_⟩
        intro x hx
        rcases List.mem_append.mp hx with hx | hx
        · exact hmin x hx
        · simp at hx
          subst hx
          exact hcb ▸ le_of_not_lt hc

theorem find?_decomp {α : Type} (p : α → Bool) :
    ∀ (l : List α) (a : α), l.find? p = some a →
      ∃ l1 l2, l = l1 ++ a :: l2 ∧ p a = true ∧ ∀ x ∈ l1, p x = false := by
  intro l
  induction l with
  | nil => intro a h; simp at h
  | cons x xs ih =>
    intro a h
    by_cases hx : p x
    · rw [List.find?_cons_of_pos _ hx] at h
      obtain rfl : x = a := by injection h
      exact ⟨[], xs, rfl, hx, by simp⟩
    · rw [List.find?_cons_of_neg _ hx] at h
      obtain ⟨l1, l2, hdec, hpa, hall⟩ := ih a h
      refine ⟨x :: l1, l2, by rw [hdec]; rfl, hpa, ?_⟩
      intro y hy
      rcases List.mem_cons.mp hy with hy | hy
      · subst hy; exact Bool.eq_false_iff.mpr hx
      · exact hall y hy

theorem firstmin_unique {α β : Type} [LinearOrder β] (cost : α → β) :
    ∀ (l1 : List α) {l2 m1 m2 : List α} {a b : α},
      l1 ++ a :: l2 = m1 ++ b :: m2 →
      (∀ x ∈ l1 ++ a :: l2, cost a ≤ cost x) →
      (∀ x ∈ l1, cost a < cost x) →
      (∀ x ∈ m1 ++ b :: m2, cost b ≤ cost x) →
      (∀ x ∈ m1, ∃ y ∈ m1 ++ b :: m2, cost y < cost x) →
      a = b := by
  intro l1
  induction l1 with
  | nil =>
    intro l2 m1 m2 a b heq hmin _ hminb hm1
    cases m1 with
    | nil =>
      simp only [List.nil_append, List.cons.injEq] at heq
      exact heq.1
    | cons x m1x =>
      simp only [List.nil_append, List.cons_append, List.cons.injEq] at heq
      obtain ⟨rfl, hl2⟩ := heq
      obtain ⟨y, hy, hlty⟩ := hm1 a (List.mem_cons_self _ _)
      have hy2 : y ∈ ([] : List α) ++ a :: l2 := by
        simp only [List.nil_append, hl2]
        simpa using hy
      exact absurd (hmin y hy2) (not_le.mpr hlty)
  | cons z l1x ih =>
    intro l2 m1 m2 a b heq hmin hlt hminb hm1
    cases m1 with
    | nil =>
      simp only [List.cons_append, List.nil_append, List.cons.injEq] at heq
      obtain ⟨rfl, hm2⟩ := heq
      have h1 : cost a < cost z := hlt z (List.mem_cons_self _ _)
      have ha : a ∈ ([] : List α) ++ z :: m2 := by
        simp only [List.nil_append, ← hm2]
        exact List.mem_cons_of_mem _ (List.mem_append_right _ (List.mem_cons_self _ _))
      exact absurd h1 (not_lt.mpr (hminb a ha))
    | cons w m1x =>
      simp only [List.cons_append, List.cons.injEq] at heq
      obtain ⟨rfl, heqt⟩ := heq
      have hlists : (z :: l1x) ++ a :: l2 = (z :: m1x) ++ b :: m2 := by
        simp [heqt]
      refine ih heqt ?_ ?_ ?_ ?_
      · intro x hx
        exact hmin x (by rw [List.cons_append]; exact List.mem_cons_of_mem _ hx)
      · intro x hx
        exact hlt x (List.mem_cons_of_mem _ hx)
      · intro x hx
        exact hminb x (by rw [List.cons_append]; exact List.mem_cons_of_mem _ hx)
      · intro x hx
        refine ⟨a, ?_, ?_⟩
        · rw [← heqt]
          exact List.mem_append_right _ (List.mem_cons_self _ _)
        · obtain ⟨y, hy, hlty⟩ := hm1 x (List.mem_cons_of_mem _ hx)
          have hy2 : y ∈ (z :: l1x) ++ a :: l2 := by
            rw [hlists]
            exact hy
          exact lt_of_le_of_lt (hmin y hy2) hlty

theorem foldMin_eq_firstArgmin {α β : Type} [LinearOrder β] (cost : α → β)
    (l : List α) :
    foldMin cost l = (firstArgmin cost l).map fun a => (a, cost a) := by
  cases hfm : foldMin cost l with
  | none =>
    have hl : l = [] := (foldMin_eq_none_iff cost l).mp hfm
    subst hl
    simp [firstArgmin]
  | some ac =>
    obtain ⟨a, c⟩ := ac
    obtain ⟨hc, l1, l2, hdec, hlt, hmin⟩ := foldMin_spec cost l a c hfm
    have hmem : a ∈ l := by
      rw [hdec]
      exact List.mem_append_right _ (List.mem_cons_self _ _)
    have hpa : (l.all fun b => decide (cost a ≤ cost b)) = true := by
      rw [List.all_eq_true]
      intro x hx
      exact decide_eq_true (hmin x hx)
    have hsome : (firstArgmin cost l).isSome := by
      rw [firstArgmin, List.find?_isSome]
      exact ⟨a, hmem, hpa⟩
    obtain ⟨b, hb⟩ := Option.isSome_iff_exists.mp hsome
    obtain ⟨m1, m2, hdecb, hpb, hallm⟩ := find?_decomp _ l b hb
    have hminb : ∀ x ∈ l, cost b ≤ cost x := by
      intro x hx
      exact of_decide_eq_true (List.all_eq_true.mp hpb x hx)
    have heq2 : l1 ++ a :: l2 = m1 ++ b :: m2 := hdec.symm.trans hdecb
    have hab : a = b := by
      refine firstmin_unique cost l1 heq2 ?_ hlt ?_ ?_
      · intro x hx
        exact hmin x (by rw [hdec]; exact hx)
      · intro x hx
        exact hminb x (by rw [hdecb]; exact hx)
      · intro x hx
        have hfalse := hallm x hx
        simp only [List.all_eq_false, decide_eq_true_eq] at hfalse
        obtain ⟨y, hy, hxy⟩ := hfalse
        exact ⟨y, by rw [← hdecb]; exact hy, not_le.mp hxy⟩
    rw [hb]
    simp only [Option.map_some']
    rw [hab, hc, hab]

/-! ## Lemmas: the motion estimators compute the declarative searches -/

theorem cellVector_eq_spec (g1 g2 : Grid) (rows cols : ℕ) (c : ℕ × ℕ) :
    cellVector g1 g2 rows cols c = cellVectorSpec g1 g2 rows cols c := by
  simp only [cellVector, cellVectorSpec]
  rw [foldMin_eq_firstArgmin]
  cases firstArgmin (matchCost g1 g2 c.1 c.2) (candidates rows cols c.1 c.2 5) with
  | none => simp
  | some q => simp

theorem accumVecsFrom_eq {α : Type} (v : α → Option (ℤ × ℤ)) :
    ∀ (l : List α) (i : ℤ × ℤ × ℕ),
      accumVecsFrom v i l =
        (i.1 + ((l.filterMap v).map Prod.fst).sum,
          i.2.1 + ((l.filterMap v).map Prod.snd).sum,
          i.2.2 + (l.filterMap v).length) := by
  intro l
  induction l with
  | nil => intro i; simp [accumVecsFrom]
  | cons c t ih =>
    intro i
    rw [accumVecsFrom, List.foldl_cons, List.filterMap_cons]
    cases hv : v c with
    | none =>
      simp only [hv]
      exact ih i
    | some d =>
      simp only [hv]
      rw [show (t.foldl
          (fun acc c => match v c with
            | some d => (acc.1 + d.1, acc.2.1 + d.2, acc.2.2 + 1)
            | none => acc)
          (i.1 + d.1, i.2.1 + d.2, i.2.2 + 1)) =
          accumVecsFrom v (i.1 + d.1, i.2.1 + d.2, i.2.2 + 1) t from rfl]
      rw [ih]
      simp [add_assoc, Nat.add_comm]

theorem accumVecs_eq {α : Type} (v : α → Option (ℤ × ℤ)) (l : List α) :
    accumVecs v l =
      (((l.filterMap v).map Prod.fst).sum, ((l.filterMap v).map Prod.snd).sum,
        (l.filterMap v).length) := by
  rw [accumVecs, accumVecsFrom_eq]
  simp

/-- C1: in whole-field averaging mode the estimator inspects every cell of
the older grid with value above 0.1, matches it to the first row-major
cell of the in-bounds radius-5 square of the newer grid attaining the
strictly minimal absolute value difference, accepts the match only when
that minimal error is below 0.5, and reports the arithmetic mean of the
accepted real-valued displacement vectors when strictly more than 10 were
accepted, and `AmbiguousMotion` otherwise. -/
theorem C1_whole_field_estimator (g1 g2 : Grid) :
    trackMovement g1 g2 = trackMovementSpec g1 g2 := by
  simp only [trackMovement, trackMovementSpec, acceptedVectors]
  rw [accumVecs_eq]
  rw [show cellVector g1 g2 g1.length (g1.headD []).length =
      cellVectorSpec g1 g2 g1.length (g1.headD []).length from
    funext (cellVector_eq_spec g1 g2 _ _)]

/-- C2: in single-target centroid mode the estimator reports
`NoTargetAtReference` when the reference cell of the older grid is not
active, otherwise matches the reference to the first row-major active
in-bounds cell of the radius-8 square of the newer grid attaining the
strictly minimal squared Euclidean cell distance, reporting
`AmbiguousMotion` when the window holds no active cell and the cell
displacement `(matchX - refX, matchY - refY)` otherwise. -/
theorem C2_center_estimator (g1 g2 : Grid) (sx sy : ℕ) :
    trackMovementFromCenter g1 g2 sx sy = trackMovementFromCenterSpec g1 g2 sx sy := by
  simp only [trackMovementFromCenter, trackMovementFromCenterSpec]
  rw [foldMin_eq_firstArgmin]
  cases firstArgmin (centerCost sx sy) (centerCandidates g2 g1.length (g1.headD []).length sx sy) with
  | none => simp
  | some q => simp

/-! ## Lemmas: the colour classifier -/

theorem distSq_nonneg (c d : Color) : 0 ≤ distSq c d := by
  have h1 := sq_nonneg ((c.1 : ℤ) - d.1)
  have h2 := sq_nonneg ((c.2.1 : ℤ) - d.2.1)
  have h3 := sq_nonneg ((c.2.2 : ℤ) - d.2.2)
  simp only [distSq]
  linarith

theorem rankOf_of_find? (tbl : List (Color × ℕ)) (e0 : Color × ℕ)
    (p : Color × ℕ → Bool)
    (hfun : ∀ e f : Color × ℕ, e.1 = f.1 → p e = p f)
    (h : tbl.find? p = some e0) : rankOf tbl e0.1 = some e0.2 := by
  obtain ⟨m1, m2, hdec, hpe, hall⟩ := find?_decomp p tbl e0 h
  rw [rankOf, hdec, List.find?_append]
  have hm1 : (m1.find? fun e => decide (e.1 = e0.1)) = none := by
    rw [List.find?_eq_none]
    intro x hx
    simp only [decide_eq_true_eq]
    intro hxe
    have hsame := hfun x e0 hxe
    rw [hall x hx, hpe] at hsame
    exact Bool.false_ne_true hsame
  rw [hm1]
  have hhead : ((e0 :: m2).find? fun e => decide (e.1 = e0.1)) = some e0 :=
    List.find?_cons_of_pos _ (by simp)
  rw [hhead]
  rfl

theorem classify_eq_spec (tbl : List (Color × ℕ)) (r g b : ℕ) :
    classify (some tbl) r g b = classifySpec tbl r g b := by
  simp only [classify, findClosestLegendColor, classifySpec, Option.getD_some]
  rw [foldMin_eq_firstArgmin]
  simp only [firstArgmin, List.find?_map]
  have hall : ∀ (t : List (Color × ℕ)) (q : Color → Bool),
      (List.map Prod.fst t).all q = t.all fun e => q e.1 := by
    intro t q
    induction t with
    | nil => rfl
    | cons e t ih => simp [List.all_cons, ih]
  have hpred : ((fun a => (List.map Prod.fst tbl).all fun d =>
        decide (distSq (r, g, b) a ≤ distSq (r, g, b) d)) ∘ Prod.fst)
      = fun e : Color × ℕ =>
        tbl.all fun f => decide (distSq (r, g, b) e.1 ≤ distSq (r, g, b) f.1) := by
    funext e
    rw [Function.comp_apply, hall]
  rw [hpred]
  cases hfind : tbl.find? fun e =>
      tbl.all fun f => decide (distSq (r, g, b) e.1 ≤ distSq (r, g, b) f.1) with
  | none => simp
  | some e0 =>
    have hrank : rankOf tbl e0.1 = some e0.2 := by
      refine rankOf_of_find? tbl e0 _ ?_ hfind
      intro e f hef
      simp only [hef]
    simp only [Option.map_some', Option.some_bind]
    by_cases hth : distSq (r, g, b) e0.1 < 10000
    · simp [hth, hrank]
    · simp [hth]

/-- C3: classification returns the rank of the first table entry (in the
table's fixed iteration order) at minimal Euclidean RGB distance from the
pixel exactly when that minimal distance is below the tolerance 100
(equivalently, squared distance below 10000 — last conjunct), and `none`
otherwise; an absent or empty table always classifies to `none`. -/
theorem C3_classifier (tbl : List (Color × ℕ)) (r g b : ℕ) :
    classify (some tbl) r g b = classifySpec tbl r g b ∧
    classify none r g b = none ∧
    classify (some []) r g b = none ∧
    ∀ c : Color,
      Real.sqrt ((distSq (r, g, b) c : ℤ) : ℝ) < 100 ↔
        distSq (r, g, b) c < 10000 := by
  refine ⟨classify_eq_spec tbl r g b, rfl, rfl, ?_⟩
  intro c
  rw [Real.sqrt_lt' (by norm_num : (0 : ℝ) < 100)]
  constructor
  · intro h
    have : ((distSq (r, g, b) c : ℤ) : ℝ) < ((10000 : ℤ) : ℝ) := by
      norm_num at h ⊢
      exact h
    exact_mod_cast this
  · intro h
    have : ((distSq (r, g, b) c : ℤ) : ℝ) < ((10000 : ℤ) : ℝ) := by exact_mod_cast h
    norm_num at this ⊢
    exact this

/-! ## Lemmas: frame history -/

theorem appendFrame_getLast? (h : List FrameRecord) (r : FrameRecord) :
    (appendFrame h r).getLast? = some r := by
  rw [appendFrame]
  split
  · next hlen =>
    have h1 : 1 ≤ h.length := by
      simp only [List.length_append, List.length_cons, List.length_nil] at hlen
      omega
    rw [List.drop_append_of_le_length (by simpa using h1), List.getLast?_concat]
  · exact List.getLast?_concat h

theorem appendFrame_length (h : List FrameRecord) (r : FrameRecord) :
    (appendFrame h r).length = if 10 ≤ h.length then h.length else h.length + 1 := by
  rw [appendFrame]
  split <;> split <;> simp_all <;> omega

theorem foldl_appendFrame (rs : List FrameRecord) :
    rs.foldl appendFrame [] = rs.drop (rs.length - 10) := by
  induction rs using List.reverseRecOn with
  | nil => simp
  | append_singleton rs r ih =>
    rw [List.foldl_append, List.foldl_cons, List.foldl_nil, ih]
    rw [appendFrame]
    by_cases hlen : rs.length ≤ 9
    · rw [Nat.sub_eq_zero_of_le (by omega), List.drop_zero]
      rw [if_neg (by simp [List.length_append]; omega)]
      rw [show (rs ++ [r]).length - 10 = 0 by simp [List.length_append]; omega]
      simp
    · push_neg at hlen
      have hd10 : (rs.drop (rs.length - 10)).length = 10 := by
        rw [List.length_drop]
        omega
      rw [if_pos (by simp [List.length_append, hd10])]
      rw [List.drop_append_of_le_length (by rw [hd10]; omega)]
      rw [List.drop_drop]
      rw [List.drop_append_of_le_length
        (by simp only [List.length_append, List.length_cons, List.length_nil]; omega)]
      congr 2
      simp only [List.length_append, List.length_cons, List.length_nil]
      omega

/-- C8 (under the amended reading of the shared state model): every
`analyzeFrame` call that passes its enabling guard appends exactly one
record through `appendFrame` — with no condition on the timestamp — and
`appendFrame` pushes the new record to the back and evicts the front
exactly when the capacity of 10 is exceeded, so a history built from
scratch always equals the last 10 inserted records in insertion order and
never exceeds 10 entries. -/
theorem C8_frame_history (st : TrackerState) (img : Image) (ts : String)
    (sx sy : ℕ) (h : List FrameRecord) (r : FrameRecord)
    (rs : List FrameRecord) :
    (analyzeFrameAvg st img ts).1.gridData =
      (if st.isEnabled = true ∧ st.legendColorMap ≠ none
        then appendFrame st.gridData ⟨ts, buildGridAvg st.legendColorMap img⟩
        else st.gridData) ∧
    (analyzeFrameBin st img ts sx sy).1.gridData =
      (if st.isEnabled = true ∧ st.selectedColor ≠ none
        then appendFrame st.gridData
          ⟨ts, buildGridBin st.legendColorMap (st.selectedColor.getD (0, 0, 0)) img⟩
        else st.gridData) ∧
    (appendFrame h r).getLast? = some r ∧
    (appendFrame h r).length = (if 10 ≤ h.length then h.length else h.length + 1) ∧
    List.foldl appendFrame [] rs = rs.drop (rs.length - 10) ∧
    (List.foldl appendFrame [] rs).length ≤ 10 := by
  refine ⟨?_, ?_, appendFrame_getLast? h r, appendFrame_length h r,
    foldl_appendFrame rs, ?_⟩
  · cases he : st.isEnabled with
    | false => simp [analyzeFrameAvg, he]
    | true =>
      cases hm : st.legendColorMap with
      | none => simp [analyzeFrameAvg, he, hm]
      | some tbl => simp [analyzeFrameAvg, he, hm]
  · cases he : st.isEnabled with
    | false => simp [analyzeFrameBin, he]
    | true =>
      cases hm : st.selectedColor with
      | none => simp [analyzeFrameBin, he, hm]
      | some tgt => simp [analyzeFrameBin, he, hm]
  · rw [foldl_appendFrame, List.length_drop]
    omega

/-- C9: the motion estimator is invoked (some estimator result is
produced, never an error) exactly when the frame passes the enabling
guard, a previous history entry exists, and that entry's timestamp
differs from the new frame's — in particular a duplicate timestamp yields
no estimate. -/
theorem C9_duplicate_timestamps (st : TrackerState) (img : Image)
    (ts : String) (sx sy : ℕ) :
    ((analyzeFrameAvg st img ts).2.isSome ↔
      st.isEnabled = true ∧ st.legendColorMap ≠ none ∧
        ∃ l, st.gridData.getLast? = some l ∧ l.timestamp ≠ ts) ∧
    ((analyzeFrameBin st img ts sx sy).2.isSome ↔
      st.isEnabled = true ∧ st.selectedColor ≠ none ∧
        ∃ l, st.gridData.getLast? = some l ∧ l.timestamp ≠ ts) := by
  constructor
  · cases he : st.isEnabled with
    | false => simp [analyzeFrameAvg, he]
    | true =>
      cases hm : st.legendColorMap with
      | none => simp [analyzeFrameAvg, he, hm]
      | some tbl =>
        cases hl : st.gridData.getLast? with
        | none => simp [analyzeFrameAvg, he, hm, hl]
        | some l =>
          by_cases ht : l.timestamp = ts
          · simp [analyzeFrameAvg, he, hm, hl, ht]
          · simp [analyzeFrameAvg, he, hm, hl, ht]
  · cases he : st.isEnabled with
    | false => simp [analyzeFrameBin, he]
    | true =>
      cases hm : st.selectedColor with
      | none => simp [analyzeFrameBin, he, hm]
      | some tgt =>
        cases hl : st.gridData.getLast? with
        | none => simp [analyzeFrameBin, he, hm, hl]
        | some l =>
          by_cases ht : l.timestamp = ts
          · simp [analyzeFrameBin, he, hm, hl, ht]
          · simp [analyzeFrameBin, he, hm, hl, ht]

/-- C4 (counterexample): a legend re-parse that ends in `NoColorsFound`
does not leave the previously built colour table intact — the source
assigns the freshly built (empty) map before checking its size, so the
prior table is replaced by an empty one. -/
theorem C4_counterexample :
    (parseLegendJSModel
        { legendColorMap := some [((0, 0, 255), 1)], selectedColor := none,
          gridData := [], isEnabled := true }
        [⟨255, 255, 255, 255⟩]).2 = LegendOutcome.noColorsFound ∧
    (parseLegendJSModel
        { legendColorMap := some [((0, 0, 255), 1)], selectedColor := none,
          gridData := [], isEnabled := true }
        [⟨255, 255, 255, 255⟩]).1.legendColorMap ≠ some [((0, 0, 255), 1)] := by
  decide

/-- C4 (amended): failures are local to their call — `ImageLoadFailed`
leaves the whole state untouched, frame analysis never modifies the
colour table or target selection and changes the history only through the
normal `appendFrame` rule, and a legend parse never touches the frame
history; but a re-parse ending in `NoColorsFound` leaves the colour table
replaced by the freshly built empty table (classification disabled), not
the prior one. -/
theorem C4_failure_locality_amended (st : TrackerState) (img : Image)
    (ts : String) (sx sy : ℕ) (col : List RGBA) (rws : List (List RGBA)) :
    parseLegendLoadFailed st = st ∧
    (parseLegendJSModel st col).1.legendColorMap = some (legendJS col) ∧
    (parseLegendJSModel st col).1.gridData = st.gridData ∧
    (parseLegendPHPModel st rws).1.legendColorMap = some (legendPHP rws) ∧
    (parseLegendPHPModel st rws).1.gridData = st.gridData ∧
    ((parseLegendJSModel st col).2 = LegendOutcome.noColorsFound ↔ legendJS col = []) ∧
    ((parseLegendPHPModel st rws).2 = LegendOutcome.noColorsFound ↔ legendPHP rws = []) ∧
    (analyzeFrameAvg st img ts).1.legendColorMap = st.legendColorMap ∧
    (analyzeFrameBin st img ts sx sy).1.legendColorMap = st.legendColorMap ∧
    (analyzeFrameBin st img ts sx sy).1.selectedColor = st.selectedColor ∧
    ((analyzeFrameAvg st img ts).1.gridData = st.gridData ∨
      ∃ r, (analyzeFrameAvg st img ts).1.gridData = appendFrame st.gridData r) := by
  refine ⟨rfl, ?_, ?_, ?_, ?_, ?_, ?_, ?_, ?_, ?_, ?_⟩
  · simp [parseLegendJSModel, parseLegendApply]
    split <;> rfl
  · simp [parseLegendJSModel, parseLegendApply]
    split <;> rfl
  · simp [parseLegendPHPModel, parseLegendApply]
    split <;> rfl
  · simp [parseLegendPHPModel, parseLegendApply]
    split <;> rfl
  · simp [parseLegendJSModel, parseLegendApply]
    split
    · next hemp => simp_all [List.isEmpty_iff]
    · next hemp => simp_all [List.isEmpty_iff]
  · simp [parseLegendPHPModel, parseLegendApply]
    split
    · next hemp => simp_all [List.isEmpty_iff]
    · next hemp => simp_all [List.isEmpty_iff]
  · rw [analyzeFrameAvg]
    split <;> rfl
  · rw [analyzeFrameBin]
    split <;> rfl
  · rw [analyzeFrameBin]
    split <;> rfl
  · rw [analyzeFrameAvg]
    split
    · exact Or.inl rfl
    · exact Or.inr ⟨_, rfl⟩

/-- C5 (counterexample): with analysis enabled and an empty-but-present
colour table (the state a `NoColorsFound` re-parse leaves behind),
`analyzeFrame` is not a no-op — an all-inactive grid is rasterized and
appended to the frame history. -/
theorem C5_counterexample :
    (analyzeFrameAvg
        { legendColorMap := some [], selectedColor := none, gridData := [],
          isEnabled := true }
        ⟨10, 10, fun _ _ => ⟨0, 0, 0, 0⟩⟩ "t").1.gridData ≠ [] := by
  decide

/-- C5 (amended): `analyzeFrame` drops the frame silently (state and
output unchanged) when analysis is disabled, when the averaging variant
has no legend map object at all, or when the single-target variant has no
selected colour; but an empty-but-present colour table does not stop the
averaging variant — the frame is still rasterized and appended. -/
theorem C5_precondition_amended (st : TrackerState) (img : Image)
    (ts : String) (sx sy : ℕ) :
    analyzeFrameAvg { st with isEnabled := false } img ts =
      ({ st with isEnabled := false }, none) ∧
    analyzeFrameAvg { st with legendColorMap := none } img ts =
      ({ st with legendColorMap := none }, none) ∧
    analyzeFrameBin { st with isEnabled := false } img ts sx sy =
      ({ st with isEnabled := false }, none) ∧
    analyzeFrameBin { st with selectedColor := none } img ts sx sy =
      ({ st with selectedColor := none }, none) ∧
    (analyzeFrameAvg { st with isEnabled := true, legendColorMap := some [] }
        img ts).1.gridData =
      appendFrame st.gridData ⟨ts, buildGridAvg (some []) img⟩ := by
  refine ⟨?_, ?_, ?_, ?_, ?_⟩
  · simp [analyzeFrameAvg]
  · simp [analyzeFrameAvg]
  · simp [analyzeFrameBin]
  · simp [analyzeFrameBin]
  · simp [analyzeFrameAvg]

/-- C10: `calculateSpeed` reports stationary exactly when the averaging
variant's pixel distance is below 1 (Euclidean, stated through
`Real.sqrt` as the source computes it) or the single-target variant's
cell deltas are both zero; past that guard it aborts with no output of
any kind exactly when the elapsed time is non-positive; and otherwise it
emits the projected great-circle distance divided by the elapsed seconds,
times 3.6, rounded to one decimal, as the km/h figure. -/
theorem C10_speed_calculator (geoDist : ℚ → ℚ → ℚ) (dxq dyq : ℚ)
    (dxi dyi : ℤ) (t1 t2 : ℤ) :
    (calculateSpeedAvg geoDist dxq dyq t1 t2 = .stationary ↔
      Real.sqrt (((dxq * 10) ^ 2 + (dyq * 10) ^ 2 : ℚ) : ℝ) < 1) ∧
    (calculateSpeedCenter geoDist dxi dyi t1 t2 = .stationary ↔
      dxi = 0 ∧ dyi = 0) ∧
    (calculateSpeedAvg geoDist dxq dyq t1 t2 = .silent ↔
      ¬((dxq * 10) ^ 2 + (dyq * 10) ^ 2 < 1) ∧
        ((t2 : ℚ) - (t1 : ℚ)) / 1000 ≤ 0) ∧
    (calculateSpeedCenter geoDist dxi dyi t1 t2 = .silent ↔
      ¬(dxi = 0 ∧ dyi = 0) ∧ ((t2 : ℚ) - (t1 : ℚ)) / 1000 ≤ 0) ∧
    (calculateSpeedAvg geoDist dxq dyq t1 t2 =
        .speed (roundTo1 (geoDist (dxq * 10) (dyq * 10) /
          (((t2 : ℚ) - (t1 : ℚ)) / 1000) * (36 / 10))) ↔
      ¬((dxq * 10) ^ 2 + (dyq * 10) ^ 2 < 1) ∧
        0 < ((t2 : ℚ) - (t1 : ℚ)) / 1000) ∧
    (calculateSpeedCenter geoDist dxi dyi t1 t2 =
        .speed (roundTo1 (geoDist ((dxi : ℚ) * 10) ((dyi : ℚ) * 10) /
          (((t2 : ℚ) - (t1 : ℚ)) / 1000) * (36 / 10))) ↔
      ¬(dxi = 0 ∧ dyi = 0) ∧ 0 < ((t2 : ℚ) - (t1 : ℚ)) / 1000) := by
  have hbr : Real.sqrt (((dxq : ℝ) * 10) ^ 2 + ((dyq : ℝ) * 10) ^ 2) < 1 ↔
      (dxq * 10) ^ 2 + (dyq * 10) ^ 2 < 1 := by
    rw [Real.sqrt_lt' one_pos, one_pow]
    constructor
    · intro h
      exact_mod_cast h
    · intro h
      exact_mod_cast h
  have hdt2 : (((t2 : ℚ) - (t1 : ℚ)) / 1000 ≤ 0) ↔ t2 ≤ t1 := by
    rw [div_le_iff₀ (by norm_num : (0 : ℚ) < 1000), zero_mul, sub_nonpos]
    exact ⟨fun h => by exact_mod_cast h, fun h => by exact_mod_cast h⟩
  by_cases hst : (dxq * 10) ^ 2 + (dyq * 10) ^ 2 < 1 <;>
    by_cases hz : dxi = 0 ∧ dyi = 0 <;>
      by_cases hdt : t2 ≤ t1 <;>
        refine ⟨?_, ?_, ?_, ?_, ?_, ?_⟩ <;>
          (try simp [calculateSpeedAvg, calculateSpeedCenter, hst, hz, hdt,
            hbr, hdt2, not_le]) <;>
          omega

/-! ## Lemmas: the rasterizer cell loops -/

theorem cellAccum_foldl (tbl? : Option (List (Color × ℕ))) :
    ∀ (pxs : List RGBA) (i : ℕ × ℕ),
      pxs.foldl (cellAccum tbl?) i =
        (i.1 + rankSum tbl? pxs, i.2 + (matchedPixels tbl? pxs).length) := by
  intro pxs
  induction pxs with
  | nil => intro i; simp [rankSum, matchedPixels]
  | cons p t ih =>
    intro i
    rw [List.foldl_cons]
    by_cases ha : 128 < p.a
    · cases hc : classify tbl? p.r p.g p.b with
      | none =>
        rw [show cellAccum tbl? i p = i from by simp [cellAccum, ha, hc]]
        rw [ih]
        simp [rankSum, matchedPixels, List.filter_cons, ha, hc]
      | some rk =>
        rw [show cellAccum tbl? i p = (i.1 + rk, i.2 + 1) from by
          simp [cellAccum, ha, hc]]
        rw [ih]
        simp [rankSum, matchedPixels, List.filter_cons, ha, hc, Prod.ext_iff]
        try omega
    · rw [show cellAccum tbl? i p = i from by simp [cellAccum, ha]]
      rw [ih]
      simp [rankSum, matchedPixels, List.filter_cons, ha]

theorem cellCount_foldl (tbl? : Option (List (Color × ℕ))) (target : Color) :
    ∀ (pxs : List RGBA) (n : ℕ),
      pxs.foldl (cellCount tbl? target) n =
        n + pxs.countP fun p => decide (128 < p.a) &&
          decide (findClosestLegendColor tbl? p.r p.g p.b = some target) := by
  intro pxs
  induction pxs with
  | nil => intro n; simp
  | cons p t ih =>
    intro n
    rw [List.foldl_cons, List.countP_cons]
    by_cases ha : 128 < p.a
    · by_cases hf : findClosestLegendColor tbl? p.r p.g p.b = some target
      · rw [show cellCount tbl? target n p = n + 1 from by
          simp [cellCount, ha, hf]]
        rw [ih]
        simp [ha, hf]
        omega
      · rw [show cellCount tbl? target n p = n from by simp [cellCount, ha, hf]]
        rw [ih]
        simp [ha, hf]
    · rw [show cellCount tbl? target n p = n from by simp [cellCount, ha]]
      rw [ih]
      simp [ha]

/-- C7: a grid cell aggregates exactly the pixels of its block whose alpha
exceeds 128; in averaging mode the cell value is the rank sum over the
classified pixels divided by their count when that count exceeds
`cellSize² / 10` and 0 otherwise, and in binary mode the cell is active
(value 1, the only other value being 0) iff the count of pixels whose
nearest legend colour is exactly the selected target exceeds
`cellSize² / 10`. -/
theorem C7_cell_rasterizer (tbl? : Option (List (Color × ℕ)))
    (target : Color) (gs : ℕ) (pxs : List RGBA) :
    cellValueAvg tbl? gs pxs =
      (if (gs * gs : ℚ) / 10 < ((matchedPixels tbl? pxs).length : ℚ)
        then (rankSum tbl? pxs : ℚ) / ((matchedPixels tbl? pxs).length : ℚ)
        else 0) ∧
    (cellValueBin tbl? target gs pxs = 1 ↔
      (gs * gs : ℚ) / 10 <
        (pxs.countP fun p => decide (128 < p.a) &&
          decide (findClosestLegendColor tbl? p.r p.g p.b = some target) : ℚ)) ∧
    (cellValueBin tbl? target gs pxs = 1 ∨ cellValueBin tbl? target gs pxs = 0) := by
  refine ⟨?_, ?_, ?_⟩
  · rw [cellValueAvg, cellAccum_foldl]
    simp
  · rw [cellValueBin, cellCount_foldl]
    simp only [Nat.zero_add, zero_add]
    split
    · next hlt => simp [hlt]
    · next hlt => simp [hlt]
  · rw [cellValueBin]
    split
    · exact Or.inl rfl
    · exact Or.inr rfl

/-! ## Lemmas: the legend scanners -/

theorem mem_scanStepJS (acc : List Color) (p : RGBA) (c : Color) :
    c ∈ scanStepJS acc p ↔ c ∈ acc ∨ (qualifiesJS p = true ∧ rgbOf p = c) := by
  rw [scanStepJS]
  by_cases hq : qualifiesJS p = true
  · by_cases hmem : rgbOf p ∈ acc
    · rw [if_neg (by simp [hq, hmem])]
      constructor
      · exact Or.inl
      · rintro (h | ⟨-, rfl⟩)
        · exact h
        · exact hmem
    · rw [if_pos (by simp [hq, hmem])]
      simp [List.mem_append, hq, eq_comm]
  · rw [if_neg (by simp [hq])]
    simp [hq]

theorem scanColJS_foldl_mem (col : List RGBA) :
    ∀ (acc : List Color) (c : Color),
      c ∈ col.foldl scanStepJS acc ↔
        c ∈ acc ∨ ∃ p ∈ col, qualifiesJS p = true ∧ rgbOf p = c := by
  induction col with
  | nil => intro acc c; simp
  | cons q t ih =>
    intro acc c
    rw [List.foldl_cons, ih, mem_scanStepJS]
    simp only [List.mem_cons, exists_eq_or_imp]
    tauto

theorem scanColJS_mem (col : List RGBA) (c : Color) :
    c ∈ scanColJS col ↔ ∃ p ∈ col, qualifiesJS p = true ∧ rgbOf p = c := by
  rw [scanColJS, scanColJS_foldl_mem]
  simp

theorem nodup_scanStepJS (acc : List Color) (p : RGBA) (h : acc.Nodup) :
    (scanStepJS acc p).Nodup := by
  rw [scanStepJS]
  split
  · next hcond =>
    simp only [Bool.and_eq_true, decide_eq_true_eq] at hcond
    simp [List.nodup_append, h, hcond.2]
  · exact h

theorem scanColJS_nodup (col : List RGBA) : (scanColJS col).Nodup := by
  rw [scanColJS]
  have key : ∀ (t : List RGBA) (acc : List Color), acc.Nodup →
      (t.foldl scanStepJS acc).Nodup := by
    intro t
    induction t with
    | nil => intro acc h; exact h
    | cons q t ih =>
      intro acc h
      rw [List.foldl_cons]
      exact ih _ (nodup_scanStepJS acc q h)
  exact key col [] List.nodup_nil

theorem firstSeenRowJS_append_found (col : List RGBA) (p : RGBA) (c : Color)
    (h : ∃ q ∈ col, qualifiesJS q = true ∧ rgbOf q = c) :
    firstSeenRowJS (col ++ [p]) c = firstSeenRowJS col c := by
  rw [firstSeenRowJS, firstSeenRowJS, List.findIdx_append]
  rw [if_pos]
  apply List.findIdx_lt_length_of_exists
  obtain ⟨q, hq, hquals, hrgb⟩ := h
  exact ⟨q, hq, by simp [hquals, hrgb]⟩

theorem firstSeenRowJS_lt_length (col : List RGBA) (c : Color)
    (h : ∃ q ∈ col, qualifiesJS q = true ∧ rgbOf q = c) :
    firstSeenRowJS col c < col.length := by
  rw [firstSeenRowJS]
  apply List.findIdx_lt_length_of_exists
  obtain ⟨q, hq, hquals, hrgb⟩ := h
  exact ⟨q, hq, by simp [hquals, hrgb]⟩

theorem firstSeenRowJS_append_new (col : List RGBA) (p : RGBA)
    (h : ∀ q ∈ col, ¬(qualifiesJS q = true ∧ rgbOf q = rgbOf p))
    (hp : qualifiesJS p = true) :
    firstSeenRowJS (col ++ [p]) (rgbOf p) = col.length := by
  rw [firstSeenRowJS, List.findIdx_append]
  rw [if_neg]
  · rw [show List.findIdx (fun q => qualifiesJS q && decide (rgbOf q = rgbOf p)) [p] = 0
      from by simp [List.findIdx_cons, hp]]
    simp
  · have hall : List.findIdx
        (fun q => qualifiesJS q && decide (rgbOf q = rgbOf p)) col = col.length := by
      rw [List.findIdx_eq_length]
      intro x hx
      have := h x hx
      by_cases hqx : qualifiesJS x = true
      · simp only [hqx, Bool.true_and, decide_eq_false_iff_not]
        intro hr
        exact this ⟨hqx, hr⟩
      · simp [hqx]
    omega

theorem scanColJS_snoc (col : List RGBA) (p : RGBA) :
    scanColJS (col ++ [p]) = scanStepJS (scanColJS col) p := by
  rw [scanColJS, scanColJS, List.foldl_append, List.foldl_cons, List.foldl_nil]

theorem scanColJS_pairwise (col : List RGBA) :
    (scanColJS col).Pairwise fun c d =>
      firstSeenRowJS col c < firstSeenRowJS col d := by
  induction col using List.reverseRecOn with
  | nil => simp [scanColJS]
  | append_singleton col p ih =>
    have occ : ∀ c ∈ scanColJS col,
        ∃ q ∈ col, qualifiesJS q = true ∧ rgbOf q = c := fun c hc =>
      (scanColJS_mem col c).mp hc
    rw [scanColJS_snoc, scanStepJS]
    by_cases hcond : (qualifiesJS p && decide (rgbOf p ∉ scanColJS col)) = true
    · rw [if_pos hcond]
      simp only [Bool.and_eq_true, decide_eq_true_eq] at hcond
      obtain ⟨hq, hnin⟩ := hcond
      rw [List.pairwise_append]
      refine ⟨?_, by simp, ?_⟩
      · refine List.Pairwise.imp_of_mem ?_ ih
        intro a b ha hb hR
        rw [firstSeenRowJS_append_found col p a (occ a ha),
          firstSeenRowJS_append_found col p b (occ b hb)]
        exact hR
      · intro a ha b hb
        simp only [List.mem_singleton] at hb
        subst hb
        rw [firstSeenRowJS_append_found col p a (occ a ha),
          firstSeenRowJS_append_new col p ?_ hq]
        · exact firstSeenRowJS_lt_length col a (occ a ha)
        · intro q hqmem hcontra
          exact hnin ((scanColJS_mem col (rgbOf p)).mpr ⟨q, hqmem, hcontra⟩)
    · rw [if_neg hcond]
      refine List.Pairwise.imp_of_mem ?_ ih
      intro a b ha hb hR
      rw [firstSeenRowJS_append_found col p a (occ a ha),
        firstSeenRowJS_append_found col p b (occ b hb)]
      exact hR

theorem scanColJS_eq_nil (col : List RGBA) :
    scanColJS col = [] ↔ ∀ p ∈ col, ¬ qualifiesJS p = true := by
  constructor
  · intro h p hp hq
    have : rgbOf p ∈ scanColJS col :=
      (scanColJS_mem col (rgbOf p)).mpr ⟨p, hp, hq, rfl⟩
    rw [h] at this
    simp at this
  · intro h
    rw [List.eq_nil_iff_forall_not_mem]
    intro c hc
    obtain ⟨p, hp, hq, -⟩ := (scanColJS_mem col c).mp hc
    exact h p hp hq

theorem enumFrom_concat {α : Type} :
    ∀ (n : ℕ) (l : List α) (a : α),
      (l ++ [a]).enumFrom n = l.enumFrom n ++ [(n + l.length, a)] := by
  intro n l
  induction l generalizing n with
  | nil => intro a; simp
  | cons x t ih =>
    intro a
    simp only [List.cons_append, List.enumFrom_cons, ih, List.length_cons]
    rw [show n + 1 + t.length = n + (t.length + 1) from by omega]

theorem enum_concat {α : Type} (l : List α) (a : α) :
    (l ++ [a]).enum = l.enum ++ [(l.length, a)] := by
  show (l ++ [a]).enumFrom 0 = l.enumFrom 0 ++ [(l.length, a)]
  rw [enumFrom_concat]
  simp

theorem scanRowsPHP_snoc (rows : List (List RGBA)) (r : List RGBA) :
    scanRowsPHP (rows ++ [r]) = scanStepPHP (scanRowsPHP rows) (rows.length, r) := by
  rw [scanRowsPHP, scanRowsPHP, enum_concat, List.foldl_append, List.foldl_cons,
    List.foldl_nil]

theorem rowNewColor_some (seen : List Color) (row : List RGBA) (p : RGBA)
    (h : rowNewColor seen row = some p) :
    qualifiesPHP p = true ∧ rgbOf p ∉ seen := by
  have := List.find?_some h
  simpa using this

theorem scanRowsPHP_pos_pairwise (rows : List (List RGBA)) :
    (∀ e ∈ scanRowsPHP rows, e.2 < rows.length) ∧
    (scanRowsPHP rows).Pairwise fun e f => e.2 < f.2 := by
  induction rows using List.reverseRecOn with
  | nil => simp [scanRowsPHP]
  | append_singleton rows r ih =>
    obtain ⟨ihA, ihB⟩ := ih
    rw [scanRowsPHP_snoc, scanStepPHP]
    cases hnew : rowNewColor ((scanRowsPHP rows).map Prod.fst) r with
    | none =>
      refine ⟨?_, ihB⟩
      intro e he
      have := ihA e he
      simp only [List.length_append, List.length_cons, List.length_nil]
      omega
    | some p =>
      constructor
      · intro e he
        rcases List.mem_append.mp he with he | he
        · have := ihA e he
          simp only [List.length_append, List.length_cons, List.length_nil]
          omega
        · simp only [List.mem_singleton] at he
          subst he
          simp only [List.length_append, List.length_cons, List.length_nil]
          omega
      · rw [List.pairwise_append]
        refine ⟨ihB, by simp, ?_⟩
        intro a ha b hb
        simp only [List.mem_singleton] at hb
        subst hb
        exact ihA a ha

theorem scanRowsPHP_keys_nodup (rows : List (List RGBA)) :
    ((scanRowsPHP rows).map Prod.fst).Nodup := by
  induction rows using List.reverseRecOn with
  | nil => simp [scanRowsPHP]
  | append_singleton rows r ih =>
    rw [scanRowsPHP_snoc, scanStepPHP]
    cases hnew : rowNewColor ((scanRowsPHP rows).map Prod.fst) r with
    | none => exact ih
    | some p =>
      obtain ⟨hq, hnin⟩ := rowNewColor_some _ _ _ hnew
      simp [List.nodup_append, ih, hnin]

theorem scanRowsPHP_eq_nil (rows : List (List RGBA)) :
    scanRowsPHP rows = [] ↔
      ∀ row ∈ rows, ∀ p ∈ row, ¬ qualifiesPHP p = true := by
  induction rows using List.reverseRecOn with
  | nil => simp [scanRowsPHP]
  | append_singleton rows r ih =>
    rw [scanRowsPHP_snoc, scanStepPHP]
    cases hsc : scanRowsPHP rows with
    | nil =>
      have hprev : ∀ row ∈ rows, ∀ p ∈ row, ¬ qualifiesPHP p = true := ih.mp hsc
      simp only [List.map_nil]
      cases hnew : rowNewColor [] r with
      | none =>
        have hr : ∀ p ∈ r, ¬ qualifiesPHP p = true := by
          rw [rowNewColor, List.find?_eq_none] at hnew
          intro p hp hq
          have := hnew p hp
          simp [hq] at this
        constructor
        · intro _ row hrow
          rcases List.mem_append.mp hrow with hrow | hrow
          · exact hprev row hrow
          · simp only [List.mem_singleton] at hrow
            subst hrow
            exact hr
        · intro _
          rfl
      | some p =>
        obtain ⟨hq, -⟩ := rowNewColor_some _ _ _ hnew
        have hmem : p ∈ r := List.mem_of_find?_eq_some hnew
        constructor
        · intro habs
          simp at habs
        · intro hall
          exact absurd hq (hall r (List.mem_append_right _ (List.mem_cons_self _ _)) p hmem)
    | cons e es =>
      have hne : scanRowsPHP rows ≠ [] := by rw [hsc]; simp
      constructor
      · intro habs
        exfalso
        cases hnew : rowNewColor ((e :: es).map Prod.fst) r with
        | none =>
          rw [hnew] at habs
          simp at habs
        | some p =>
          rw [hnew] at habs
          simp at habs
      · intro hall
        exfalso
        apply hne
        rw [ih]
        intro row hrow
        exact hall row (List.mem_append_left _ hrow)

theorem scanRowsPHP_sort_eq (rows : List (List RGBA)) :
    List.insertionSort posLe (scanRowsPHP rows) = scanRowsPHP rows := by
  apply List.Sorted.insertionSort_eq
  exact ((scanRowsPHP_pos_pairwise rows).2).imp fun h => le_of_lt h

theorem assignRanks_map_snd (cs : List Color) :
    (assignRanks cs).map Prod.snd = List.range' 1 cs.length := by
  rw [assignRanks, List.map_map]
  rw [show (Prod.snd ∘ fun ic : ℕ × Color => (ic.2, ic.1)) = Prod.fst from rfl]
  exact List.enumFrom_map_fst 1 cs

theorem assignRanks_map_fst (cs : List Color) :
    (assignRanks cs).map Prod.fst = cs := by
  rw [assignRanks, List.map_map]
  rw [show (Prod.fst ∘ fun ic : ℕ × Color => (ic.2, ic.1)) = Prod.snd from rfl]
  exact List.enumFrom_map_snd 1 cs

/-- C6: both legend parsers return a table whose ranks are exactly the
contiguous sequence 1..N, whose RGB keys are pairwise distinct, and whose
colours are ordered by first-seen row ascending (for the higher-fidelity
variant, the scanner's recorded rows are strictly increasing after the
sort); the parse ends in `NoColorsFound` exactly when no sampled pixel
qualifies (alpha > 200, R+G+B < 700, and, in the higher-fidelity variant,
not near-gray), and a successful parse never returns an empty table. -/
theorem C6_legend_extractor (st : TrackerState) (col : List RGBA)
    (rws : List (List RGBA)) :
    (legendJS col).map Prod.snd = List.range' 1 (legendJS col).length ∧
    ((legendJS col).map Prod.fst).Nodup ∧
    ((legendJS col).map Prod.fst).Pairwise
      (fun c d => firstSeenRowJS col c < firstSeenRowJS col d) ∧
    ((parseLegendJSModel st col).2 = LegendOutcome.noColorsFound ↔
      ∀ p ∈ col, ¬ qualifiesJS p = true) ∧
    (parseLegendJSModel st col).2 ≠ LegendOutcome.ok [] ∧
    (legendPHP rws).map Prod.snd = List.range' 1 (legendPHP rws).length ∧
    ((legendPHP rws).map Prod.fst).Nodup ∧
    (List.insertionSort posLe (scanRowsPHP rws)).Pairwise
      (fun e f => e.2 < f.2) ∧
    ((parseLegendPHPModel st rws).2 = LegendOutcome.noColorsFound ↔
      ∀ row ∈ rws, ∀ p ∈ row, ¬ qualifiesPHP p = true) ∧
    (parseLegendPHPModel st rws).2 ≠ LegendOutcome.ok [] := by
  have hlenJS : (legendJS col).length = (scanColJS col).length := by
    rw [legendJS, assignRanks]
    simp
  have hemptyJS : legendJS col = [] ↔ ∀ p ∈ col, ¬ qualifiesJS p = true := by
    rw [← scanColJS_eq_nil]
    constructor
    · intro h
      have : (scanColJS col).length = 0 := by rw [← hlenJS, h]; rfl
      exact List.length_eq_zero.mp this
    · intro h
      rw [legendJS, h]
      rfl
  have hsortPHP := scanRowsPHP_sort_eq rws
  have hlenPHP : (legendPHP rws).length = (scanRowsPHP rws).length := by
    rw [legendPHP, assignRanks, hsortPHP]
    simp
  have hemptyPHP : legendPHP rws = [] ↔
      ∀ row ∈ rws, ∀ p ∈ row, ¬ qualifiesPHP p = true := by
    rw [← scanRowsPHP_eq_nil]
    constructor
    · intro h
      have : (scanRowsPHP rws).length = 0 := by rw [← hlenPHP, h]; rfl
      exact List.length_eq_zero.mp this
    · intro h
      rw [legendPHP, hsortPHP, h]
      rfl
  refine ⟨?_, ?_, ?_, ?_, ?_, ?_, ?_, ?_, ?_, ?_⟩
  · rw [hlenJS, legendJS, assignRanks_map_snd]
  · rw [legendJS, assignRanks_map_fst]
    exact scanColJS_nodup col
  · rw [legendJS, assignRanks_map_fst]
    exact scanColJS_pairwise col
  · rw [parseLegendJSModel, parseLegendApply]
    split
    · next hE =>
      simp only [true_iff]
      exact hemptyJS.mp (List.isEmpty_iff.mp hE)
    · next hE =>
      simp only [reduceCtorEq, false_iff]
      intro hall
      exact hE (List.isEmpty_iff.mpr (hemptyJS.mpr hall))
  · rw [parseLegendJSModel, parseLegendApply]
    split
    · next hE => simp
    · next hE =>
      simp only [ne_eq, LegendOutcome.ok.injEq]
      intro h
      exact hE (List.isEmpty_iff.mpr h)
  · rw [hlenPHP, legendPHP, assignRanks_map_snd, hsortPHP]
    rw [show ((scanRowsPHP rws).map Prod.fst).length = (scanRowsPHP rws).length
      from List.length_map _ _]
  · rw [legendPHP, assignRanks_map_fst, hsortPHP]
    exact scanRowsPHP_keys_nodup rws
  · rw [hsortPHP]
    exact (scanRowsPHP_pos_pairwise rws).2
  · rw [parseLegendPHPModel, parseLegendApply]
    split
    · next hE =>
      simp only [true_iff]
      exact hemptyPHP.mp (List.isEmpty_iff.mp hE)
    · next hE =>
      simp only [reduceCtorEq, false_iff]
      intro hall
      exact hE (List.isEmpty_iff.mpr (hemptyPHP.mpr hall))
  · rw [parseLegendPHPModel, parseLegendApply]
    split
    · next hE => simp
    · next hE =>
      simp only [ne_eq, LegendOutcome.ok.injEq]
      intro h
      exact hE (List.isEmpty_iff.mpr h)

end DwdRadar
